import Mathlib

/-!
Verification development for the SWIPE pitch estimator (src/swipe.c and
src/vector.c).  The definitions below are shallow embeddings of the C
functions: machine doubles are modelled by elements of a linear ordered
field (instantiated at Rat or Real), C ints by Nat or Int, fallible array
reads by Option, and the NaN marker written into the pitch vector by the
constructor none.  Transcendental library functions (log2, pow, cos, the
LAPACK least-squares call behind polyfit) are threaded through the
definitions as explicit function parameters, exactly where the C code
calls them; no claim below depends on their values except through
explicitly stated hypotheses.
-/

set_option maxHeartbeats 1000000
set_option linter.unusedSectionVars false

variable {α : Type} [LinearOrderedField α] [FloorRing α]

/-- The struct matrix from vector.h: x rows, y columns, entry function for
the storage m, so that m i j embeds the C expression S.m[i][j]. -/
structure Mat (α : Type) where
  x : ℕ
  y : ℕ
  m : ℕ → ℕ → α

/-- zerom from vector.c: a matrix of the given shape filled with 0. -/
def zeromM (x y : ℕ) : Mat α := ⟨x, y, fun _ _ => 0⟩

/-- SHRT_MIN, the initial value the C code uses for maximum searches over
doubles (swipe.c line 384 and line 402). -/
def shrtMin : α := -32768

/-- The macro DLOG2P from swipe.c: the literal .0104167 (a decimal
approximation of 1/96). -/
def dlog2pC : α := 104167 / 10000000

/-- The macro DERBS from swipe.c: the literal .1 . -/
def derbsC : α := 1 / 10

/-- The macro POLYV from swipe.c: the literal .0013028 (a decimal
approximation of 1/768). -/
def polyvC : α := 13028 / 10000000

/-- The round fallback defined in swipe.c lines 120-124: floor(x + .5)
for nonnegative x and floor(x - .5) otherwise, read back as a C int. -/
def roundC (t : α) : ℤ := if 0 ≤ t then ⌊t + 1 / 2⌋ else ⌊t - 1 / 2⌋

/-- polyval from vector.c lines 550-557: evaluation of a coefficient
vector, highest power first. -/
def polyval (coefs : List α) (val : α) : α :=
  (List.range coefs.length).foldl
    (fun s i => s + coefs.getD i 0 * val ^ (coefs.length - i - 1)) 0

/-- The external functions pitch() calls: log2 and pow(2, .) from libm,
M_PI, and the LAPACK-backed polyfit from vector.c.  They are parameters
of the embedding because their numeric values play no role in the claims
about pitch(). -/
structure TransParams (α : Type) where
  log2 : α → α
  pow2 : α → α
  piV : α
  polyfit : List α → List α → ℕ → List α

/-- The maximum scan in pitch() (swipe.c lines 384-390): fold over the
rows of column j, starting from SHRT_MIN, updating value and index on a
strict increase.  The C code leaves maxi uninitialized; the embedding
starts it at 0 (the C value is only read after at least one update or,
in the SHRT_MIN corner, as an uninitialized read). -/
def colScan (S : Mat α) (j : ℕ) : α × ℕ :=
  (List.range S.x).foldl
    (fun p i => if p.1 < S.m i j then (S.m i j, i) else p) (shrtMin, 0)

/-- The loop bound search computed once before the frame loop of pitch()
(swipe.c line 371): round((log2(pc[2]) - log2(pc[0])) / POLYV + 1). -/
def pitchSearch (P : TransParams α) (pc : List α) : ℤ :=
  roundC ((P.log2 (pc.getD 2 0) - P.log2 (pc.getD 0 0)) / polyvC + 1)

/-- The three normalized frequency points ntc computed once before the
frame loop of pitch() (swipe.c lines 375-381), with tc2 = 1 / pc[1]. -/
def pitchNtc (P : TransParams α) (pc : List α) : List α :=
  [(1 / pc.getD 0 0 / (1 / pc.getD 1 0) - 1) * 2 * P.piV,
   ((1 / pc.getD 1 0) / (1 / pc.getD 1 0) - 1) * 2 * P.piV,
   (1 / pc.getD 2 0 / (1 / pc.getD 1 0) - 1) * 2 * P.piV]

/-- The body of the frame loop of pitch() (swipe.c lines 383-417) for
output frame j: scan the column for its maximum, compare against the
strength threshold, and either mark the frame unvoiced (none, the C NaN),
report pc[0] at the boundary, or refine with the fitted polynomial.  The
loop reuses the C variable maxi as the initial index of its second
argmax scan, which the embedding reproduces. -/
def pitchCol (P : TransParams α) (S : Mat α) (pc : List α) (st : α)
    (j : ℕ) : Option α :=
  let mm := colScan S j
  if st < mm.1 then
    if mm.2 = 0 ∨ mm.2 = S.x - 1 then some (pc.getD 0 0)
    else
      let tc2j := 1 / pc.getD mm.2 0
      let log2pc := P.log2 (pc.getD (mm.2 - 1) 0)
      let svals : List α := [S.m (mm.2 - 1) j, S.m mm.2 j, S.m (mm.2 + 1) j]
      let coefs := P.polyfit (pitchNtc P pc) svals 2
      let fin := (List.range (pitchSearch P pc).toNat).foldl
        (fun p i =>
          let nftc := polyval coefs
            (((1 / P.pow2 ((i : α) * polyvC + log2pc)) / tc2j - 1) * 2 * P.piV)
          if p.1 < nftc then (nftc, i) else p)
        (shrtMin, mm.2)
      some (P.pow2 (log2pc + (fin.2 : α) * polyvC))
  else none

/-- pitch() from swipe.c lines 367-422.  The output vector entry for an
unvoiced frame (the C code writes NaN) is embedded as none.  All reads of
pc use getD, matching the C reads, which are unchecked.  The quantities
search and ntc are computed before the frame loop in the C code and do
not depend on the frame, so the embedding recomputes them per column. -/
def pitchV (P : TransParams α) (S : Mat α) (pc : List α) (st : α) :
    List (Option α) :=
  (List.range S.y).map (pitchCol P S pc st)

/-- The column count of the strength matrix allocated by swipe()
(swipe.c line 478): ceil((x.x / samplerate) / dt). -/
def swipeSy (n : ℕ) (fs dt : ℚ) : ℤ := ⌈((n : ℚ) / fs) / dt⌉

/-- bisectv from vector.c lines 131-145 and bilookv from lines 151-165
share this loop: while hi - lo > 1, probe md = (hi + lo) >> 1 and shrink
the bracket.  Indices are Nat; every reachable state of the verified
call chains keeps the C ints nonnegative, where int and Nat arithmetic
agree.  The structural fuel argument only bounds the iteration count;
each iteration shrinks hi - lo, so any fuel of at least hi - lo (the
wrappers below pass exactly that) reproduces the C while loop. -/
def bisectLoopF {β : Type} [LinearOrder β] [Zero β] (v : List β) (key : β) :
    ℕ → ℕ → ℕ → ℕ
  | 0, _lo, hi => hi
  | fuel + 1, lo, hi =>
    if 1 < hi - lo then
      let md := (hi + lo) / 2
      if key < v.getD md 0 then bisectLoopF v key fuel lo md
      else bisectLoopF v key fuel md hi
    else hi

/-- bisectv from vector.c: bisection starting from the full bracket
lo = 1, hi = length. -/
def bisectv {β : Type} [LinearOrder β] [Zero β] (v : List β) (key : β) : ℕ :=
  bisectLoopF v key (v.length - 1) 1 v.length

/-- bilookv from vector.c: bisection resumed from a caller-supplied lower
bound, which is first decremented. -/
def bilookv {β : Type} [LinearOrder β] [Zero β] (v : List β) (key : β)
    (lo : ℕ) : ℕ :=
  bisectLoopF v key (v.length - (lo - 1)) (lo - 1) v.length

/-- The kernel q grid in Sadd (swipe.c lines 241-244):
q.v[j] = fERBs.v[j] / pci.v[i]. -/
def qGrid (fERBs : List α) (pci : α) : List α := fERBs.map (· / pci)

/-- The per-candidate prime limit computed in Sadd (swipe.c line 245):
floor(fERBs[last] / pci - .75).  The C code computes it into plim and
then never reads it. -/
def plimC (fERBs : List α) (pci : α) : ℤ :=
  ⌊fERBs.getD (fERBs.length - 1) 0 / pci - 3 / 4⌋

/-- One pass of the inner kernel loop in Sadd (swipe.c lines 249-257) for
the harmonic number hval = j + 1: peak bins are overwritten with
cos(2 pi q), valley bins accumulate cos(2 pi q) / 2, other bins are left
alone.  cosTwoPi x embeds the C expression cos(2. * M_PI * x). -/
def applyPrimeKernel (cosTwoPi : α → α) (q : List α) (hval : α)
    (kernel : List α) : List α :=
  List.zipWith (fun qk kv =>
    if |qk - hval| < 1 / 4 then cosTwoPi qk
    else if |qk - hval| < 3 / 4 then kv + cosTwoPi qk / 2
    else kv) q kernel

/-- The full prime loop of Sadd (swipe.c lines 246-259): starting from a
zero kernel, apply every index j of the prime table ps whose flag is set,
as harmonic j + 1. -/
def kernelLoop (cosTwoPi : α → α) (q : List α) (ps : List Bool) : List α :=
  (List.range ps.length).foldl
    (fun kern j =>
      if ps.getD j false then applyPrimeKernel cosTwoPi q ((j : α) + 1) kern
      else kern)
    (List.replicate q.length 0)

/-- The row normalization factor of loudness() (swipe.c lines 210-213):
the sum of squares of a row. -/
def sumsq (r : List α) : α := r.foldl (fun acc x => acc + x * x) 0

/-- The row normalization of loudness() (swipe.c lines 209-220): when the
sum of squares is nonzero, divide every entry by its square root,
otherwise leave the row alone.  sqrtF embeds the libm sqrt call. -/
def normalizeRow (sqrtF : α → α) (r : List α) : List α :=
  if sumsq r ≠ 0 then r.map (fun v => v / sqrtF (sumsq r)) else r

/-- The window size vector entries built in swipe() (swipe.c lines
456-458): ws.v[i] = pow(2, r) / pow(2, i) truncated to int, where
r = round(log2(nyquist16 / min)). -/
def wsv (r : ℤ) (i : ℕ) : ℤ := ⌊(2 : ℚ) ^ (r - (i : ℤ))⌋

/-- The window count computed in swipe() (swipe.c lines 454-455), as a
function of a = log2(nyquist16 / min) and b = log2(nyquist16 / max):
round(a - b) + 1. -/
def wsCountR (a b : α) : ℤ := roundC (a - b) + 1

/-- The exponent of the largest window (swipe.c line 457):
round(log2(nyquist16 / min)). -/
def wsExp (a : α) : ℤ := roundC a

/-- The pitch candidates built in swipe() (swipe.c lines 461-465):
pc.v[i] = pow(2, log2(min) + i * DLOG2P), as a function of
lmin = log2(min) and the libm pow(2, .) parameter. -/
def pcV (pow2 : α → α) (lmin : α) (i : ℕ) : α :=
  pow2 (lmin + (i : α) * dlog2pC)

/-- erb2hz from swipe.c lines 134-136, with tenPow embedding the libm
pow(10, .) call: (pow(10, erb / 21.4) - 1) * 229. -/
def erb2hzG (tenPow : α → α) (e : α) : α := (tenPow (e / (214 / 10)) - 1) * 229

/-- The ERB axis built in swipe() (swipe.c lines 471-474):
fERBs.v[i] = erb2hz(emin + i * DERBS), where emin = hz2erb(min / 4). -/
def fERBsV (tenPow : α → α) (emin : α) (i : ℕ) : α :=
  erb2hzG tenPow (emin + (i : α) * derbsC)

/-- The sequence of window indices n at which swipe() runs a strength
pass (swipe.c lines 479-483): Sfirst at n = 0, Snth at n = 1 .. wsx - 2,
and Slast at the final value of the loop counter, which is wsx - 1 when
wsx is at least 2 and stays 1 when the loop body never runs. -/
def strengthPasses (wsx : ℕ) : List ℕ :=
  0 :: (List.range' 1 (wsx - 2) ++ [max 1 (wsx - 1)])

/-- The Hann window of loudness() (swipe.c lines 172-175):
hann.v[i] = .5 - .5 * cos(2 pi (i / w)). -/
def hannV (piV : α) (cosF : α → α) (w i : ℕ) : α :=
  1 / 2 - 1 / 2 * cosF (2 * piV * ((i : α) / (w : α)))

/-- The first-frame fill of loudness() (swipe.c lines 182-187): the left
half of the FFT buffer is zeroed and the right half is filled with
x.v[j - w2] * hann.v[j].  The signal read is embedded with Option, so an
out-of-bounds index makes the whole frame none. -/
def firstFrame (piV : α) (cosF : α → α) (x : List α) (w w2 : ℕ) :
    Option (List α) :=
  (List.range w).mapM (fun j =>
    if j < w2 then some (0 : α)
    else (x.get? (j - w2)).map (fun xv => xv * hannV piV cosF w j))

/-- A concrete instantiation of the transcendental parameters used by the
closed evaluation theorems over Rat; the evaluated branches never depend
on these values. -/
def qParams : TransParams ℚ :=
  ⟨id, id, 0, fun _ _ _ => []⟩

/-- The 3-candidate, 1-frame strength matrix used by the concrete
evaluation theorems: the column is (0, 0, 1), so the argmax is the last
row. -/
def exS : Mat ℚ := ⟨3, 1, fun i _ => if i = 2 then 1 else 0⟩

/-- The 3-entry candidate grid used by the concrete evaluation
theorems. -/
def exPc : List ℚ := [1, 2, 4]

/-- A 1-candidate, 1-frame strength matrix whose single strength lies
below SHRT_MIN = -32768. -/
def exS1 : Mat ℚ := ⟨1, 1, fun _ _ => -40000⟩

/-- The prime table of the concrete kernel evaluation: flags for the
integers 1 .. 11 after the sieve and the ps.v[0] = P hack of swipe.c
line 477, so indices 0, 1, 2, 4, 6, 10 (values 1, 2, 3, 5, 7, 11) are
set. -/
def exPs : List Bool :=
  [true, true, true, false, true, false, true, false, false, false, true]

example : bisectv [(0 : ℤ), 10, 20, 30] 5 = 2 := by decide
example : bilookv [(0 : ℤ), 10, 20, 30] 25 2 = 3 := by decide

/-- A window size with exponent at least the window index is an exact
power of two. -/
theorem wsv_eq_pow (r : ℤ) (i : ℕ) (h : (i : ℤ) ≤ r) :
    wsv r i = 2 ^ (r - i).toNat := by
  unfold wsv
  have h0 : (0 : ℤ) ≤ r - i := by linarith
  have h1 : ((r - i).toNat : ℤ) = r - i := Int.toNat_of_nonneg h0
  have h2 : (2 : ℚ) ^ (r - (i : ℤ)) = ((2 ^ (r - i).toNat : ℤ) : ℚ) := by
    rw [← h1, zpow_natCast]
    push_cast
    rfl
  rw [h2, Int.floor_intCast]

/-- C8: the planner outputs are monotone as the claim states, stated as a
function of the log quantities a = log2(nyquist16 / min) and
b = log2(nyquist16 / max), where nyquist16 = 8 fs (swipe.c line 445);
valid parameters give 4 = log2 16 <= b (the pitch ceiling is clamped to
the Nyquist rate fs / 2, so nyquist16 / max is at least 16) and b <= a
(min is below max), and the libm pow(2, .) and pow(10, .) are strictly
monotone. -/
theorem c8_planner_monotone_parts (pow2 tenPow : α → α) (hp : StrictMono pow2)
    (ht : StrictMono tenPow) (lmin emin a b : α) (hb : 4 ≤ b) (hab : b ≤ a) :
    StrictMono (pcV pow2 lmin) ∧ StrictMono (fERBsV tenPow emin)
      ∧ ∀ n : ℕ, ((n : ℤ) + 1 < wsCountR a b) →
          wsv (wsExp a) (n + 1) < wsv (wsExp a) n
          ∧ wsv (wsExp a) n = 2 * wsv (wsExp a) (n + 1)
          ∧ ∃ k : ℕ, wsv (wsExp a) n = 2 ^ k := by
  refine ⟨?_, ?_, ?_⟩
  · intro i j hij
    unfold pcV
    apply hp
    have hc : (i : α) < (j : α) := by exact_mod_cast hij
    have hd : (0 : α) < dlog2pC := by norm_num [dlog2pC]
    have := mul_lt_mul_of_pos_right hc hd
    linarith
  · intro i j hij
    unfold fERBsV erb2hzG
    have hc : (i : α) < (j : α) := by exact_mod_cast hij
    have hd : (0 : α) < derbsC := by norm_num [derbsC]
    have h1 : emin + (i : α) * derbsC < emin + (j : α) * derbsC := by
      have := mul_lt_mul_of_pos_right hc hd
      linarith
    have h2 : (emin + (i : α) * derbsC) / (214 / 10)
        < (emin + (j : α) * derbsC) / (214 / 10) :=
      (div_lt_div_right (by norm_num)).mpr h1
    have h3 := ht h2
    have h4 : tenPow ((emin + (i : α) * derbsC) / (214 / 10)) - 1
        < tenPow ((emin + (j : α) * derbsC) / (214 / 10)) - 1 := by linarith
    exact mul_lt_mul_of_pos_right h4 (by norm_num)
  · intro n hn
    have ha0 : (0 : α) ≤ a := by linarith
    have hab0 : (0 : α) ≤ a - b := by linarith
    have hr : wsExp a = ⌊a + 1 / 2⌋ := by
      unfold wsExp roundC
      rw [if_pos ha0]
    have hcnt : wsCountR a b = ⌊a - b + 1 / 2⌋ + 1 := by
      unfold wsCountR roundC
      rw [if_pos hab0]
    have hkey : ⌊a - b + 1 / 2⌋ ≤ ⌊a + 1 / 2⌋ - 4 := by
      have h1 : a - b + 1 / 2 ≤ a + 1 / 2 - (4 : ℤ) := by push_cast; linarith
      calc ⌊a - b + 1 / 2⌋ ≤ ⌊a + 1 / 2 - (4 : ℤ)⌋ := Int.floor_le_floor h1
        _ = ⌊a + 1 / 2⌋ - 4 := Int.floor_sub_int _ _
    rw [hcnt] at hn
    rw [hr]
    have hnr : (n : ℤ) + 1 ≤ ⌊a + 1 / 2⌋ := by linarith
    have hcast : (((n + 1 : ℕ)) : ℤ) = (n : ℤ) + 1 := by push_cast; rfl
    have hv1 : wsv ⌊a + 1 / 2⌋ n = 2 ^ (⌊a + 1 / 2⌋ - n).toNat :=
      wsv_eq_pow _ _ (by linarith)
    have hv2 : wsv ⌊a + 1 / 2⌋ (n + 1)
        = 2 ^ (⌊a + 1 / 2⌋ - ((n : ℤ) + 1)).toNat := by
      rw [wsv_eq_pow _ (n + 1) (by rw [hcast]; linarith), hcast]
    have hexp : (⌊a + 1 / 2⌋ - (n : ℤ)).toNat
        = (⌊a + 1 / 2⌋ - ((n : ℤ) + 1)).toNat + 1 := by omega
    have hpos : (0 : ℤ) < 2 ^ (⌊a + 1 / 2⌋ - ((n : ℤ) + 1)).toNat :=
      pow_pos (by norm_num) _
    refine ⟨?_, ?_, ⟨(⌊a + 1 / 2⌋ - n).toNat, hv1⟩⟩
    · rw [hv1, hv2, hexp, pow_succ]
      linarith
    · rw [hv1, hv2, hexp, pow_succ]
      exact mul_comm _ _

/-- Witness for C8: the parts theorem applied at a = 12, b = 4 (the
boundary value b = log2 16 that the Nyquist clamp permits) over Rat with
both transcendental parameters instantiated at the identity. -/
theorem c8_witness :
    StrictMono (pcV (id : ℚ → ℚ) 0)
      ∧ StrictMono (fERBsV (id : ℚ → ℚ) 0)
      ∧ (wsv (wsExp (12 : ℚ)) 3 < wsv (wsExp (12 : ℚ)) 2
          ∧ wsv (wsExp (12 : ℚ)) 2 = 2 * wsv (wsExp (12 : ℚ)) 3
          ∧ ∃ k : ℕ, wsv (wsExp (12 : ℚ)) 2 = 2 ^ k) := by
  have h := c8_planner_monotone_parts (id : ℚ → ℚ) (id : ℚ → ℚ)
    strictMono_id strictMono_id 0 0 12 4 (by norm_num) (by norm_num)
  refine ⟨h.1, h.2.1, h.2.2 2 ?_⟩
  norm_num [wsCountR, roundC]

/-! ## Helper lemmas -/

/-- The accumulator form of sumsq: folding from acc adds the sum of the
squares. -/
theorem sumsq_foldl_eq (l : List α) :
    ∀ acc : α, l.foldl (fun acc x => acc + x * x) acc
      = acc + (l.map (fun x => x * x)).sum := by
  induction l with
  | nil => intro acc; simp
  | cons a t ih =>
    intro acc
    simp only [List.foldl_cons, List.map_cons, List.sum_cons]
    rw [ih]
    ring

/-- sumsq as a sum of squares. -/
theorem sumsq_eq_sum (l : List α) :
    sumsq l = (l.map (fun x => x * x)).sum := by
  unfold sumsq
  rw [sumsq_foldl_eq]
  ring

/-- Scaling every entry of a row divides its sum of squares by the square
of the scale. -/
theorem sumsq_map_div (l : List α) (c : α) :
    sumsq (l.map (fun v => v / c)) = sumsq l / (c * c) := by
  rw [sumsq_eq_sum, sumsq_eq_sum]
  induction l with
  | nil => simp
  | cons a t ih =>
    simp only [List.map_cons, List.sum_cons]
    rw [ih]
    field_simp

/-- A list whose sum of squares is zero is all zeros. -/
theorem eq_zero_of_sumsq_eq_zero (l : List α) (h : sumsq l = 0) :
    ∀ v ∈ l, v = 0 := by
  rw [sumsq_eq_sum] at h
  induction l with
  | nil => simp
  | cons a t ih =>
    simp only [List.map_cons, List.sum_cons] at h
    have ha : 0 ≤ a * a := mul_self_nonneg a
    have ht : 0 ≤ (t.map (fun x => x * x)).sum := by
      apply List.sum_nonneg
      intro x hx
      obtain ⟨y, _, rfl⟩ := List.mem_map.mp hx
      exact mul_self_nonneg y
    have h1 : a * a = 0 := by linarith
    have h2 : (t.map (fun x => x * x)).sum = 0 := by linarith
    intro v hv
    rcases List.mem_cons.mp hv with rfl | hvt
    · exact mul_self_eq_zero.mp h1
    · exact ih h2 v hvt

/-- Indexing the pitch vector below the frame count yields the frame
computed by pitchCol. -/
theorem pitchV_get (P : TransParams α) (S : Mat α) (pc : List α) (st : α)
    (j : ℕ) (hj : j < S.y) :
    (pitchV P S pc st).get? j = some (pitchCol P S pc st j) := by
  unfold pitchV
  rw [List.get?_map, List.get?_range hj, Option.map_some']

/-- A frame of pitch() is marked unvoiced exactly when the scanned column
maximum does not exceed the threshold. -/
theorem pitchCol_eq_none_iff (P : TransParams α) (S : Mat α) (pc : List α)
    (st : α) (j : ℕ) :
    pitchCol P S pc st j = none ↔ (colScan S j).1 ≤ st := by
  unfold pitchCol
  rcases lt_or_le st (colScan S j).1 with h | h
  · rw [if_pos h]
    constructor
    · intro hc
      exfalso
      revert hc
      split <;> simp
    · intro hc
      exact absurd hc (not_le_of_lt h)
  · rw [if_neg (not_lt.mpr h)]
    simp [h]

/-- The value component of the column scan is the fold of max over the
column, floored at SHRT_MIN. -/
theorem colScan_fst (S : Mat α) (j : ℕ) :
    (colScan S j).1
      = ((List.range S.x).map (fun i => S.m i j)).foldl max shrtMin := by
  unfold colScan
  rw [List.foldl_map]
  have key : ∀ (l : List ℕ) (a : α) (i0 : ℕ),
      (l.foldl (fun p i => if p.1 < S.m i j then (S.m i j, i) else p)
          (a, i0)).1
        = l.foldl (fun x i => max x (S.m i j)) a := by
    intro l
    induction l with
    | nil => intro a i0; rfl
    | cons b t ih =>
      intro a i0
      simp only [List.foldl_cons]
      rcases lt_or_le a (S.m b j) with h | h
      · rw [if_pos h, max_eq_right (le_of_lt h)]
        exact ih _ _
      · rw [if_neg (not_lt.mpr h), max_eq_left h]
        exact ih _ _
  exact key _ _ _

/-! ## Claim theorems -/

/-- C4: the spec demands that a planner yielding ws_count = 1 still makes
swipe() terminate normally with a single in-bounds strength pass.  The
code instead runs two passes, Sfirst at window index 0 and Slast at
window index 1, and the Slast pass reads ws.v[1], one past the end of the
one-element window vector: in the embedding the access is none.  This
closed theorem evaluates the embedding at that failing input. -/
theorem c4_single_window_eval :
    strengthPasses 1 = [0, 1] ∧ ([32] : List ℤ).get? 1 = none := by
  constructor
  · rfl
  · rfl

/-- C5: the pitch vector returned by the core has exactly
ceil((N / fs) / dt) entries: pitch() (swipe.c line 382) sizes its output
by the column count of the strength matrix, which swipe() allocates at
line 478 as ceil((x.x / samplerate) / dt). -/
theorem c5_pitch_length (P : TransParams ℚ) (pc : List ℚ) (st : ℚ)
    (n : ℕ) (fs dt : ℚ) (hfs : 0 < fs) (hdt : 0 < dt) :
    ((pitchV P (zeromM pc.length (swipeSy n fs dt).toNat) pc st).length : ℤ)
      = swipeSy n fs dt := by
  have h0 : 0 ≤ swipeSy n fs dt := by
    have hq : (0 : ℚ) ≤ ((n : ℚ) / fs) / dt := by positivity
    exact Int.ceil_nonneg hq
  simp only [pitchV, List.length_map, List.length_range, zeromM]
  exact Int.toNat_of_nonneg h0

/-- Witness for C5 at n = 1, fs = 1, dt = 1. -/
theorem c5_witness :
    (0 : ℚ) < 1 ∧
      ((pitchV qParams (zeromM exPc.length (swipeSy 1 1 1).toNat) exPc 0).length
          : ℤ) = swipeSy 1 1 1 :=
  ⟨by norm_num, c5_pitch_length qParams exPc 0 1 1 1 (by norm_num) (by norm_num)⟩

/-- C6: in the row normalization of loudness(), every row with nonzero
sum of squares ends with squared L2 norm exactly 1 (so L2 norm 1), every
row with zero sum of squares is left unchanged and is all zeros, and the
divisor used in the nonzero branch is itself nonzero, so no division by a
zero norm occurs.  The only property of the libm sqrt call the proof
needs is stated as the hypothesis hsq. -/
theorem c6_loudness_normalization (sqrtF : α → α) (r : List α)
    (hsq : sqrtF (sumsq r) * sqrtF (sumsq r) = sumsq r) :
    (sumsq r ≠ 0 →
        sumsq (normalizeRow sqrtF r) = 1 ∧ sqrtF (sumsq r) ≠ 0)
      ∧ (sumsq r = 0 → normalizeRow sqrtF r = r ∧ ∀ v ∈ r, v = 0) := by
  constructor
  · intro h
    have hsnz : sqrtF (sumsq r) ≠ 0 := by
      intro hc
      rw [hc, mul_zero] at hsq
      exact h hsq.symm
    refine ⟨?_, hsnz⟩
    unfold normalizeRow
    rw [if_pos h, sumsq_map_div, hsq]
    exact div_self h
  · intro h
    refine ⟨?_, eq_zero_of_sumsq_eq_zero r h⟩
    unfold normalizeRow
    rw [if_neg (not_not_intro h)]

/-- Witness for C6 at the row (1, 0) with sqrt instantiated at id (the
only value probed is sqrt 1 = 1). -/
theorem c6_witness :
    sumsq (normalizeRow (id : ℚ → ℚ) [1, 0]) = 1
      ∧ id (sumsq [(1 : ℚ), 0]) ≠ 0 := by
  have h := c6_loudness_normalization (id : ℚ → ℚ) [1, 0]
    (by norm_num [sumsq])
  have h1 := h.1 (by norm_num [sumsq])
  exact ⟨h1.1, h1.2⟩

/-- C1, counterexample: on the strength matrix with single column
(0, 0, 1) and candidate grid (1, 2, 4) with threshold 0, the argmax row
is the last row (index 2 = K - 1) and its strength 1 exceeds the
threshold, yet pitch() reports pc[0] = 1 and not pc[K - 1] = 4: line 393
of swipe.c writes pc.v[0] in both boundary cases. -/
theorem c1_counterexample :
    (colScan exS 0).2 = exS.x - 1 ∧ (0 : ℚ) < (colScan exS 0).1
      ∧ (pitchV qParams exS exPc 0).get? 0
          ≠ some (some (exPc.getD (exS.x - 1) 0)) := by
  refine ⟨?_, ?_, ?_⟩
  · norm_num [colScan, exS, shrtMin, List.range_succ]
  · norm_num [colScan, exS, shrtMin, List.range_succ]
  · norm_num [pitchV, pitchCol, colScan, exS, exPc, shrtMin, List.range_succ]

/-- C1, amended: in pitch(), for every output frame whose maximum
strength exceeds the threshold, if the argmax row is the first or the
last row of the candidate grid, the reported pitch is pc[0] in both
cases, with no quadratic refinement (swipe.c lines 392-394). -/
theorem c1_boundary_reports_pc0 (P : TransParams α) (S : Mat α)
    (pc : List α) (st : α) (j : ℕ) (hj : j < S.y)
    (hv : st < (colScan S j).1)
    (hb : (colScan S j).2 = 0 ∨ (colScan S j).2 = S.x - 1) :
    (pitchV P S pc st).get? j = some (some (pc.getD 0 0)) := by
  rw [pitchV_get P S pc st j hj]
  unfold pitchCol
  rw [if_pos hv, if_pos hb]

/-- Witness for C1: the amended theorem applied at the concrete matrix
with column (0, 0, 1). -/
theorem c1_witness :
    (0 : ℕ) < exS.y ∧ (0 : ℚ) < (colScan exS 0).1
      ∧ ((colScan exS 0).2 = 0 ∨ (colScan exS 0).2 = exS.x - 1)
      ∧ (pitchV qParams exS exPc 0).get? 0 = some (some (exPc.getD 0 0)) := by
  refine ⟨by norm_num [exS], ?_, ?_, ?_⟩
  · norm_num [colScan, exS, shrtMin, List.range_succ]
  · norm_num [colScan, exS, shrtMin, List.range_succ]
  · exact c1_boundary_reports_pc0 qParams exS exPc 0 0 (by norm_num [exS])
      (by norm_num [colScan, exS, shrtMin, List.range_succ])
      (by norm_num [colScan, exS, shrtMin, List.range_succ])

/-- C7, counterexample to the stated equivalence: for the single-entry
column -40000 with threshold -35000, the maximum strength -40000 is
below the threshold, so the claim says the frame is unvoiced; but the
scan in pitch() starts from SHRT_MIN = -32768 (swipe.c line 384), its
value never drops below that floor, and the frame is reported voiced. -/
theorem c7_counterexample :
    exS1.m 0 0 ≤ (-35000 : ℚ)
      ∧ (pitchV qParams exS1 exPc (-35000 : ℚ)).get? 0 ≠ some none := by
  constructor
  · norm_num [exS1]
  · norm_num [pitchV, pitchCol, colScan, exS1, exPc, shrtMin, List.range_succ]
    simp

/-- C7, amended: for a fixed strength matrix and candidate grid, with
thresholds st1 at most st2, every frame unvoiced at st1 is unvoiced at
st2, the count of unvoiced frames is monotonically non-decreasing in the
threshold, and a frame is unvoiced exactly when the column maximum
floored at SHRT_MIN = -32768 (the initial value of the scan at swipe.c
line 384) does not exceed the threshold. -/
theorem c7_threshold_monotone (P : TransParams α) (S : Mat α)
    (pc : List α) (st1 st2 : α) (h12 : st1 ≤ st2) :
    (∀ j, (pitchV P S pc st1).get? j = some none →
        (pitchV P S pc st2).get? j = some none)
      ∧ (pitchV P S pc st1).count none ≤ (pitchV P S pc st2).count none
      ∧ ∀ j, j < S.y →
          ((pitchV P S pc st2).get? j = some none ↔
            ((List.range S.x).map (fun i => S.m i j)).foldl max shrtMin
              ≤ st2) := by
  have key : ∀ j, pitchCol P S pc st1 j = none → pitchCol P S pc st2 j = none := by
    intro j h1
    rw [pitchCol_eq_none_iff] at h1 ⊢
    exact le_trans h1 h12
  refine ⟨?_, ?_, ?_⟩
  · intro j h1
    by_cases hj : j < S.y
    · rw [pitchV_get P S pc st1 j hj] at h1
      rw [pitchV_get P S pc st2 j hj]
      rw [Option.some_inj] at h1 ⊢
      exact key j h1
    · exfalso
      have : (pitchV P S pc st1).get? j = none := by
        apply List.get?_eq_none.mpr
        simpa [pitchV] using le_of_not_lt hj
      rw [this] at h1
      exact Option.noConfusion h1
  · unfold pitchV
    rw [List.count_eq_countP, List.count_eq_countP,
      List.countP_map, List.countP_map]
    apply List.countP_mono_left
    intro j _ hj1
    have h1 : pitchCol P S pc st1 j = none := by
      simpa using hj1
    simp [key j h1]
  · intro j hj
    rw [pitchV_get P S pc st2 j hj, Option.some_inj,
      pitchCol_eq_none_iff, colScan_fst]

/-- C3, counterexample, over the reals with the genuine cosine: with ERB
grid (1, 11) and candidate pc[i] = 1, the per-candidate limit is
floor(11 / 1 - .75) = 10, but the prime loop of Sadd (swipe.c lines
247-259) runs over the whole prime table: the prime 11 > 10 hits the bin
with q = 11 in its peak region and overwrites that kernel entry with
cos(2 pi 11) = 1, so dropping the primes above the limit changes the
kernel. -/
theorem c3_counterexample :
    plimC [(1 : ℝ), 11] 1 = 10
      ∧ kernelLoop (fun x => Real.cos (2 * Real.pi * x))
            (qGrid [(1 : ℝ), 11] 1) exPs
          ≠ kernelLoop (fun x => Real.cos (2 * Real.pi * x))
              (qGrid [(1 : ℝ), 11] 1)
              (exPs.take (plimC [(1 : ℝ), 11] 1).toNat) := by
  have hp : plimC [(1 : ℝ), 11] 1 = 10 := by norm_num [plimC]
  refine ⟨hp, ?_⟩
  rw [hp, show ((10 : ℤ)).toNat = 10 from rfl]
  intro hEq
  have hcos : Real.cos (2 * Real.pi * 11) = 1 := by
    have harg : (2 : ℝ) * Real.pi * 11 = (11 : ℤ) * (2 * Real.pi) := by ring
    rw [harg, Real.cos_int_mul_two_pi]
  norm_num [kernelLoop, applyPrimeKernel, qGrid, exPs, List.range_succ,
    abs_sub_lt_iff, List.zipWith_cons_cons, List.replicate_succ,
    List.take_succ_cons, hcos] at hEq

/-- C3, amended: the per-candidate limit floor(fERBs_max / pc[i] - .75)
computed at swipe.c line 245 is dead (the loop applies every prime of the
global table); what does hold is that a prime h touching no bin, that is
with q[k] + 3/4 at most h for every bin, leaves the kernel unchanged,
since both the peak and the valley conditions need |q[k] - h| < 3/4. -/
theorem c3_prime_above_band_no_contribution (cosTwoPi : α → α)
    (q kern : List α) (hval : α) (hq : ∀ z ∈ q, z + 3 / 4 ≤ hval)
    (hlen : kern.length ≤ q.length) :
    applyPrimeKernel cosTwoPi q hval kern = kern := by
  unfold applyPrimeKernel
  induction q generalizing kern with
  | nil =>
    have hk : kern = [] := List.length_eq_zero.mp (Nat.le_zero.mp hlen)
    subst hk
    rfl
  | cons qh qt ih =>
    cases kern with
    | nil => rfl
    | cons kh kt =>
      have hh : qh + 3 / 4 ≤ hval := hq qh (List.mem_cons_self qh qt)
      have habs : 3 / 4 ≤ |qh - hval| := by
        rw [abs_sub_comm, abs_of_nonneg (by linarith)]
        linarith
      simp only [List.zipWith_cons_cons]
      rw [if_neg (by intro hc; linarith), if_neg (by intro hc; linarith)]
      congr 1
      exact ih kt (fun z hz => hq z (List.mem_cons_of_mem qh hz))
        (by simpa using hlen)

/-- Witness for C3: a prime at 5 leaves the kernel on bins q = 1, 2
unchanged. -/
theorem c3_witness :
    ((1 : ℚ) + 3 / 4 ≤ 5 ∧ (2 : ℚ) + 3 / 4 ≤ 5)
      ∧ applyPrimeKernel (fun _ => (1 : ℚ)) [1, 2] 5 [0, 0] = [0, 0] := by
  refine ⟨⟨by norm_num, by norm_num⟩, ?_⟩
  apply c3_prime_above_band_no_contribution
  · intro z hz
    rcases List.mem_cons.mp hz with rfl | hz2
    · norm_num
    · rcases List.mem_cons.mp hz2 with rfl | hz3
      · norm_num
      · simp at hz3
  · norm_num

/-- C10: the first-frame fill of loudness() reads signal samples 0 ..
W/2 - 1 unconditionally; when the signal has at least W/2 samples every
read is in bounds and the frame is built, while the concrete signal of
length 1 with the planner window ws[0] = 32 (so W/2 = 16, a length the
data model permits, requiring only a nonempty signal) drives a read past
the end of the signal: the none branch of signal indexing is reached and
the frame is none. -/
theorem c10_first_frame_bounds :
    (∀ (piV : ℚ) (cosF : ℚ → ℚ) (x : List ℚ) (w2 : ℕ), w2 ≤ x.length →
        (firstFrame piV cosF x (2 * w2) w2).isSome = true)
      ∧ (firstFrame (0 : ℚ) id [1] 32 16 = none
          ∧ wsv 5 0 = 32 ∧ 1 ≤ ([(1 : ℚ)] : List ℚ).length
          ∧ ([(1 : ℚ)] : List ℚ).length < 16) := by
  constructor
  · intro piV cosF x w2 hlen
    unfold firstFrame
    have key : ∀ l : List ℕ, (∀ j ∈ l, j < 2 * w2) →
        ((l.mapM fun j =>
            if j < w2 then some (0 : ℚ)
            else (x.get? (j - w2)).map (fun xv => xv * hannV piV cosF (2 * w2) j)).isSome
          = true) := by
      intro l
      induction l with
      | nil => intro _; rfl
      | cons a t ih =>
        intro hmem
        rw [List.mapM_cons]
        have ha : (if a < w2 then some (0 : ℚ)
            else (x.get? (a - w2)).map
              (fun xv => xv * hannV piV cosF (2 * w2) a)).isSome = true := by
          split
          · rfl
          · have haw : a < 2 * w2 := hmem a (List.mem_cons_self a t)
            have hidx : a - w2 < x.length := by omega
            rw [List.get?_eq_get hidx]
            rfl
        obtain ⟨v, hv⟩ := Option.isSome_iff_exists.mp ha
        obtain ⟨r, hr⟩ := Option.isSome_iff_exists.mp
          (ih (fun j hj => hmem j (List.mem_cons_of_mem a hj)))
        rw [hv, hr]
        rfl
    exact key (List.range (2 * w2)) (fun j hj => List.mem_range.mp hj)
  · refine ⟨by decide, ?_, by norm_num, by norm_num⟩
    show (⌊(2 : ℚ) ^ ((5 : ℤ) - (0 : ℕ))⌋ : ℤ) = 32
    norm_num

/-- Witness for C10: the in-bounds half applied at the two-sample signal
(5, 6) with W = 4. -/
theorem c10_witness :
    (2 ≤ ([(5 : ℚ), 6] : List ℚ).length)
      ∧ (firstFrame (0 : ℚ) id [5, 6] (2 * 2) 2).isSome = true :=
  ⟨by norm_num, c10_first_frame_bounds.1 0 id [5, 6] 2 (by norm_num)⟩

/-- Witness for C7: the amended theorem applied to the concrete matrix
with column (0, 0, 1) at thresholds 0 and 1. -/
theorem c7_witness :
    (0 : ℚ) ≤ 1
      ∧ ((pitchV qParams exS exPc (0 : ℚ)).count none
          ≤ (pitchV qParams exS exPc (1 : ℚ)).count none)
      ∧ ((pitchV qParams exS exPc (1 : ℚ)).get? 0 = some none ↔
          ((List.range exS.x).map (fun i => exS.m i 0)).foldl max shrtMin
            ≤ (1 : ℚ)) := by
  have h := c7_threshold_monotone qParams exS exPc 0 1 (by norm_num)
  exact ⟨by norm_num, h.2.1, h.2.2 0 (by norm_num [exS])⟩

/-- Sorted lists have monotone getD on in-bounds indices. -/
theorem sorted_getD_le {β : Type} [LinearOrder β] [Zero β] (v : List β)
    (hs : v.Sorted (· < ·)) {m1 m2 : ℕ} (h12 : m1 ≤ m2) (h2 : m2 < v.length) :
    v.getD m1 0 ≤ v.getD m2 0 := by
  have h1 : m1 < v.length := lt_of_le_of_lt h12 h2
  rw [List.getD_eq_getElem?_getD, List.getD_eq_getElem?_getD,
    List.getElem?_eq_getElem h1, List.getElem?_eq_getElem h2,
    Option.getD_some, Option.getD_some]
  rcases eq_or_lt_of_le h12 with rfl | hlt
  · exact le_refl _
  · have hrel := hs.rel_get_of_lt
      (show (⟨m1, h1⟩ : Fin v.length) < ⟨m2, h2⟩ from hlt)
    simp only [List.get_eq_getElem] at hrel
    exact le_of_lt hrel

/-- The bracket invariant of the shared bisection loop on a strictly
increasing vector: the result stays inside the initial bracket, every
probed index strictly between the initial lo and the result carries a
value at most the key, and every index from the result up to the initial
hi carries a value above the key. -/
theorem bisectLoopF_char {β : Type} [LinearOrder β] [Zero β] (v : List β)
    (key : β) (hs : v.Sorted (· < ·)) :
    ∀ (fuel lo hi : ℕ), hi - lo ≤ fuel → lo < hi → hi ≤ v.length →
      lo < bisectLoopF v key fuel lo hi
        ∧ bisectLoopF v key fuel lo hi ≤ hi
        ∧ (∀ m, lo < m → m < bisectLoopF v key fuel lo hi →
            v.getD m 0 ≤ key)
        ∧ (∀ m, bisectLoopF v key fuel lo hi ≤ m → m < hi →
            key < v.getD m 0) := by
  intro fuel
  induction fuel with
  | zero =>
    intro lo hi hf hlh _
    exact absurd hf (by omega)
  | succ fuel ih =>
    intro lo hi hf hlh hhl
    by_cases h1 : 1 < hi - lo
    · have hmd1 : lo < (hi + lo) / 2 := by omega
      have hmd2 : (hi + lo) / 2 < hi := by omega
      by_cases h2 : key < v.getD ((hi + lo) / 2) 0
      · have hstep : bisectLoopF v key (fuel + 1) lo hi
            = bisectLoopF v key fuel lo ((hi + lo) / 2) := by
          simp only [bisectLoopF]
          rw [if_pos h1, if_pos h2]
        rw [hstep]
        obtain ⟨A, B, C, D⟩ := ih lo ((hi + lo) / 2) (by omega) hmd1 (by omega)
        refine ⟨A, le_trans B (le_of_lt hmd2), C, ?_⟩
        intro m hm1 hm2
        by_cases hm3 : m < (hi + lo) / 2
        · exact D m hm1 hm3
        · have hmono : v.getD ((hi + lo) / 2) 0 ≤ v.getD m 0 :=
            sorted_getD_le v hs (by omega) (lt_of_lt_of_le hm2 hhl)
          exact lt_of_lt_of_le h2 hmono
      · have hstep : bisectLoopF v key (fuel + 1) lo hi
            = bisectLoopF v key fuel ((hi + lo) / 2) hi := by
          simp only [bisectLoopF]
          rw [if_pos h1, if_neg h2]
        rw [hstep]
        obtain ⟨A, B, C, D⟩ := ih ((hi + lo) / 2) hi (by omega) hmd2 hhl
        refine ⟨lt_trans hmd1 A, B, ?_, D⟩
        intro m hm1 hm2
        by_cases hm3 : (hi + lo) / 2 < m
        · exact C m hm3 hm2
        · have hmdlen : (hi + lo) / 2 < v.length := by omega
          have hmono : v.getD m 0 ≤ v.getD ((hi + lo) / 2) 0 :=
            sorted_getD_le v hs (by omega) hmdlen
          exact le_trans hmono (le_of_not_lt h2)
    · have hstep : bisectLoopF v key (fuel + 1) lo hi = hi := by
        simp only [bisectLoopF]
        rw [if_neg h1]
      rw [hstep]
      refine ⟨hlh, le_refl hi, ?_, ?_⟩
      · intro m hm1 hm2
        omega
      · intro m hm1 hm2
        omega

/-- C9: on a strictly increasing vector, resuming bilookv from the index
an earlier bisectv returned for a key at most the current one yields the
same interval index as a fresh bisectv on the current key; by induction
along La() (swipe.c lines 152-156), the resume-from-previous-hi lookup
over the increasing ERB points selects exactly the spline intervals a
from-scratch bisection would select. -/
theorem c9_bilookv_eq_bisectv {β : Type} [LinearOrder β] [Zero β]
    (v : List β) (key1 key2 : β) (hs : v.Sorted (· < ·))
    (hk : key1 ≤ key2) :
    bilookv v key2 (bisectv v key1) = bisectv v key2 := by
  rcases le_or_lt v.length 1 with hlen | hlen
  · rcases Nat.le_one_iff_eq_zero_or_eq_one.mp hlen with h | h <;>
      simp [bisectv, bilookv, h, bisectLoopF]
  · unfold bisectv bilookv
    set n := v.length with hn
    obtain ⟨P1, P2, P3, P4⟩ := bisectLoopF_char v key1 hs (n - 1) 1 n
      (by omega) (by omega) (le_refl n)
    set P := bisectLoopF v key1 (n - 1) 1 n with hP
    obtain ⟨B1, B2, B3, B4⟩ := bisectLoopF_char v key2 hs (n - 1) 1 n
      (by omega) (by omega) (le_refl n)
    set B := bisectLoopF v key2 (n - 1) 1 n with hB
    obtain ⟨A1, A2, A3, A4⟩ := bisectLoopF_char v key2 hs (n - (P - 1))
      (P - 1) n (by omega) (by omega) (le_refl n)
    set A := bisectLoopF v key2 (n - (P - 1)) (P - 1) n with hA
    by_contra hne
    rcases lt_or_gt_of_ne hne with hAB | hBA
    · have hx : key2 < v.getD A 0 := A4 A (le_refl A) (by omega)
      have hy : v.getD A 0 ≤ key2 := B3 A (by omega) hAB
      exact absurd hy (not_le_of_lt hx)
    · have hBP : P - 1 < B := by
        by_contra hc
        push_neg at hc
        have h3 : v.getD B 0 ≤ key1 := P3 B B1 (by omega)
        have h4 : key2 < v.getD B 0 := B4 B (le_refl B) (by omega)
        exact absurd hk (not_le_of_lt (lt_of_lt_of_le h4 h3))
      have h5 : v.getD B 0 ≤ key2 := A3 B hBP hBA
      have h6 : key2 < v.getD B 0 := B4 B (le_refl B) (by omega)
      exact absurd h5 (not_le_of_lt h6)

/-- Witness for C9: on the vector (0, 10, 20, 30) with keys 5 then 25,
the resumed lookup agrees with the fresh bisection. -/
theorem c9_witness :
    ([(0 : ℤ), 10, 20, 30].Sorted (· < ·)) ∧ ((5 : ℤ) ≤ 25)
      ∧ bilookv [(0 : ℤ), 10, 20, 30] 25 (bisectv [(0 : ℤ), 10, 20, 30] 5)
          = bisectv [(0 : ℤ), 10, 20, 30] 25 :=
  ⟨by decide, by decide, c9_bilookv_eq_bisectv _ _ _ (by decide) (by decide)⟩
